import Mathlib

/-
Verification of the P2P blockchain node in `set 4 exam/4D-P2Pnetwork.js`.

Shallow embedding conventions:
* JS numbers used as integer timestamps, indices and nonces are modelled as
  `Nat`; transaction amounts (which may be negative or zero) as `Int`.
* `crypto.createHash('sha256')...digest('hex')` and `JSON.stringify` on a
  transaction list are ambient, deterministic functions; they are carried in a
  `HashEnv` parameter so that theorems hold for every hash function and
  witnesses can instantiate a concrete one.
* Each call to `Date.now()` is modelled as an explicit `Nat` argument threaded
  to the function performing the call.
* JS `null` for the optional `from`/`to`/`validator`/`signature` fields is
  modelled as `Option.none`; a JS string field holds `some s`.
* `JSON.stringify(a) === JSON.stringify(b)` on two block objects is modelled
  as structural equality of the two `Block` values (serialisation of records
  built from the same constructor is injective on this value domain).
-/

namespace P2PNetwork

/-- Transaction record as built by the node (`/api/transactions` handler and
the mining-reward transaction): `id`, `from`, `to`, `amount`, `timestamp`,
`signature`.  `from` is a Lean keyword, so the field is spelled `from_`. -/
structure Transaction where
  id : String
  from_ : Option String
  to_ : Option String
  amount : Int
  timestamp : Nat
  signature : Option String
deriving DecidableEq, Repr, Inhabited

/-- Block record (`EnhancedBlockchain.createGenesisBlock` / `mineBlock`):
`index`, `timestamp`, `transactions`, `previousHash`, `hash`, `nonce`,
`validator` (null for genesis, the miner address once mined). -/
structure Block where
  index : Nat
  timestamp : Nat
  transactions : List Transaction
  previousHash : String
  hash : String
  nonce : Nat
  validator : Option String
deriving DecidableEq, Repr, Inhabited

/-- Ambient deterministic functions used by the source: hex-encoded SHA-256 of
a string, and `JSON.stringify` of a transaction list. -/
structure HashEnv where
  sha256hex : String → String
  jsonTx : List Transaction → String

/-- JS truthiness of an optional string: `null` and `""` are falsy. -/
def jsFalsyStr : Option String → Bool
  | none => true
  | some s => s == ""

/-- EnhancedBlockchain state: `chain`, `difficulty`, `miningReward`,
`consensusType` (constructor lines 270-275). -/
structure Blockchain where
  chain : List Block
  difficulty : Nat
  miningReward : Int
  consensusType : String
deriving Repr

/-- EnhancedBlockchain.calculateHash (lines 289-294).  The JS expression
`index + timestamp + JSON.stringify(transactions) + previousHash + nonce`
first adds the two numbers `index` and `timestamp` numerically, then
concatenates the string pieces. -/
def calculateHash (env : HashEnv) (index timestamp : Nat)
    (transactions : List Transaction) (previousHash : String) (nonce : Nat) : String :=
  env.sha256hex (toString (index + timestamp) ++ env.jsonTx transactions
    ++ previousHash ++ toString nonce)

/-- EnhancedBlockchain.createGenesisBlock (lines 277-287).  The source calls
`Date.now()` twice: `t1` is the value stored in the `timestamp` field, `t2`
the value passed to `calculateHash`. -/
def createGenesisBlock (env : HashEnv) (t1 t2 : Nat) : Block :=
  { index := 0
    timestamp := t1
    transactions := []
    previousHash := "0"
    hash := calculateHash env 0 t2 [] "0" 0
    nonce := 0
    validator := none }

/-- EnhancedBlockchain constructor (lines 270-275): chain seeded with the
genesis block, difficulty 4, mining reward 10, proof-of-work consensus. -/
def mkEnhancedBlockchain (env : HashEnv) (t1 t2 : Nat) : Blockchain :=
  { chain := [createGenesisBlock env t1 t2]
    difficulty := 4
    miningReward := 10
    consensusType := "POW" }

/-- EnhancedBlockchain.getLatestBlock (lines 296-298): `chain[chain.length-1]`.
Every reachable chain is non-empty (the constructor seeds the genesis block and
the mutators only append or install longer chains), so the `default` fallback
for the empty list is never consulted; on an empty chain the JS code would
fault dereferencing `undefined`. -/
def getLatestBlock (bc : Blockchain) : Block :=
  (bc.chain.getLast?).getD default

/-- Array(difficulty + 1).join('0'): a string of `difficulty` zero characters
(line 375, right-hand side of the comparison). -/
def powTarget (difficulty : Nat) : String :=
  String.mk (List.replicate difficulty '0')

/-- EnhancedBlockchain.validateProofOfWork (lines 374-376):
`block.hash.substring(0, difficulty) === Array(difficulty + 1).join('0')`. -/
def validateProofOfWork (block : Block) (difficulty : Nat) : Bool :=
  block.hash.take difficulty == powTarget difficulty

/-- EnhancedBlockchain.isValidBlock (lines 308-335): previous-hash link to the
currently stored tail, hash recomputation, then the proof-of-work target when
the consensus type is "POW". -/
def isValidBlock (env : HashEnv) (bc : Blockchain) (block : Block) : Bool :=
  let previousBlock := getLatestBlock bc
  if ¬ (block.previousHash = previousBlock.hash) then false
  else
    let recalculatedHash := calculateHash env block.index block.timestamp
      block.transactions block.previousHash block.nonce
    if ¬ (block.hash = recalculatedHash) then false
    else if bc.consensusType == "POW" then validateProofOfWork block bc.difficulty
    else true

/-- EnhancedBlockchain.addBlock (lines 300-306): append iff `isValidBlock`,
returning whether the block was appended together with the updated state. -/
def addBlock (env : HashEnv) (bc : Blockchain) (newBlock : Block) : Bool × Blockchain :=
  if isValidBlock env bc newBlock then (true, { bc with chain := bc.chain ++ [newBlock] })
  else (false, bc)

/-- Loop body of EnhancedBlockchain.isValidChain (lines 342-353): walk the
candidate from index 1, checking the `previousHash` link to the predecessor in
the candidate and then `isValidBlock` (which validates against the *stored*
chain's tail). -/
def isValidChainLoop (env : HashEnv) (bc : Blockchain) : Block → List Block → Bool
  | _, [] => true
  | previousBlock, currentBlock :: rest =>
    if ¬ (currentBlock.previousHash = previousBlock.hash) then false
    else if ¬ (isValidBlock env bc currentBlock) then false
    else isValidChainLoop env bc currentBlock rest

/-- EnhancedBlockchain.isValidChain (lines 337-356).  `t1 t2` are the two
`Date.now()` values observed by the `createGenesisBlock()` call made *during
validation* (line 338); an empty candidate fails the genesis comparison
(`JSON.stringify(undefined)` is not a string). -/
def isValidChain (env : HashEnv) (t1 t2 : Nat) (bc : Blockchain)
    (chain : List Block) : Bool :=
  match chain with
  | [] => false
  | g :: rest =>
    if ¬ (g = createGenesisBlock env t1 t2) then false
    else isValidChainLoop env bc g rest

/-- EnhancedBlockchain.replaceChain (lines 358-372): reject when the candidate
is not strictly longer, reject when `isValidChain` fails, otherwise install the
candidate.  Returns the JS return value paired with the resulting state. -/
def replaceChain (env : HashEnv) (t1 t2 : Nat) (bc : Blockchain)
    (newChain : List Block) : Bool × Blockchain :=
  if newChain.length ≤ bc.chain.length then (false, bc)
  else if ¬ (isValidChain env t1 t2 bc newChain = true) then (false, bc)
  else (true, { bc with chain := newChain })

/-- TransactionPool state (constructor lines 449-452): ordered list of pending
transactions (insertion order) and the capacity bound. -/
structure TransactionPool where
  transactions : List Transaction
  maxPoolSize : Nat
deriving Repr

/-- TransactionPool constructor (lines 449-452): empty list, capacity 1000. -/
def TransactionPool.init : TransactionPool :=
  { transactions := [], maxPoolSize := 1000 }

/-- Effect of `Object.assign(existingTransaction, transaction)` on the stored
list (line 459): the first entry whose `id` equals the incoming transaction's
`id` has every field overwritten by the incoming transaction, in place.  (The
incoming record carries all fields, so the assignment is a full overwrite.) -/
def replaceFirstById : List Transaction → Transaction → List Transaction
  | [], _ => []
  | t :: ts, transaction =>
    if t.id = transaction.id then transaction :: ts
    else t :: replaceFirstById ts transaction

/-- TransactionPool.updateOrAddTransaction (lines 454-468): overwrite in place
when an entry with the same `id` exists; otherwise `shift()` the oldest entry
when the pool is at or above capacity, then `push` the new transaction. -/
def updateOrAddTransaction (pool : TransactionPool) (transaction : Transaction) :
    TransactionPool :=
  if (pool.transactions.find? (fun t => t.id == transaction.id)).isSome then
    { pool with transactions := replaceFirstById pool.transactions transaction }
  else if pool.maxPoolSize ≤ pool.transactions.length then
    { pool with transactions := pool.transactions.tail ++ [transaction] }
  else
    { pool with transactions := pool.transactions ++ [transaction] }

/-- TransactionPool.validTransaction (lines 470-489): the basic JS truthiness
checks (`!from`, `!to`, `!amount`, then `amount <= 0`) followed by the
duplicate search over the stored pool comparing the `(from, to, amount,
timestamp)` value-tuple (the `id` is not consulted). -/
def validTransaction (pool : TransactionPool) (transaction : Transaction) : Bool :=
  if jsFalsyStr transaction.from_ || jsFalsyStr transaction.to_
      || transaction.amount == 0 then false
  else if transaction.amount ≤ 0 then false
  else !((pool.transactions.find? (fun t =>
      t.from_ == transaction.from_ && t.to_ == transaction.to_ &&
      t.amount == transaction.amount && t.timestamp == transaction.timestamp)).isSome)

/-- TransactionPool.getValidTransactions (lines 491-493). -/
def getValidTransactions (pool : TransactionPool) : List Transaction :=
  pool.transactions.filter (fun transaction => validTransaction pool transaction)

/-- TransactionPool.clear (lines 495-497). -/
def TransactionPool.clear (pool : TransactionPool) : TransactionPool :=
  { pool with transactions := [] }

/-- TransactionPool.removeTransaction (lines 503-505): keep entries whose `id`
differs from the given one. -/
def removeTransaction (pool : TransactionPool) (transactionId : String) :
    TransactionPool :=
  { pool with transactions := pool.transactions.filter (fun t => t.id != transactionId) }

/-- Candidate-transaction assembly in BlockchainNode.mineBlock (lines 727-738):
the valid pool subset followed by the pushed mining-reward transaction. -/
def candidateTransactions (pool : TransactionPool) (rewardTransaction : Transaction) :
    List Transaction :=
  getValidTransactions pool ++ [rewardTransaction]

/-- Mutation sequence a client can apply to the pool: the claim about the size
bound quantifies over every such sequence starting from the empty pool. -/
inductive PoolOp where
  | update (transaction : Transaction)
  | clearPool
  | remove (transactionId : String)

/-- Apply one pool operation. -/
def applyPoolOp (pool : TransactionPool) : PoolOp → TransactionPool
  | .update transaction => updateOrAddTransaction pool transaction
  | .clearPool => TransactionPool.clear pool
  | .remove transactionId => removeTransaction pool transactionId

/-- Apply a sequence of pool operations, oldest first. -/
def applyPoolOps (pool : TransactionPool) (ops : List PoolOp) : TransactionPool :=
  ops.foldl applyPoolOp pool

/-- One iteration of the nonce search in EnhancedBlockchain.mineBlock (lines
397-423): compute the hash for the current nonce; on meeting the proof-of-work
target set the validator and resolve, otherwise increment the nonce.  The
50 ms slice / `setImmediate` machinery only schedules these iterations and
does not affect which block is produced; `fuel` bounds the search so the
otherwise possibly unbounded loop is total. -/
def mineAttempt (env : HashEnv) (difficulty : Nat) (index timestamp : Nat)
    (transactions : List Transaction) (previousHash : String)
    (minerAddress : String) : Nat → Nat → Option Block
  | _, 0 => none
  | nonce, fuel + 1 =>
    let candidate : Block :=
      { index := index
        timestamp := timestamp
        transactions := transactions
        previousHash := previousHash
        hash := calculateHash env index timestamp transactions previousHash nonce
        nonce := nonce
        validator := none }
    if validateProofOfWork candidate difficulty then
      some { candidate with validator := some minerAddress }
    else
      mineAttempt env difficulty index timestamp transactions previousHash
        minerAddress (nonce + 1) fuel

/-- EnhancedBlockchain.mineBlock (lines 384-427): the candidate takes the next
index, the timestamp observed at entry (`now`), the given transactions and the
stored tail's hash, then searches nonces from 0. -/
def mineBlock (env : HashEnv) (bc : Blockchain) (transactions : List Transaction)
    (minerAddress : String) (now fuel : Nat) : Option Block :=
  mineAttempt env bc.difficulty bc.chain.length now transactions
    (getLatestBlock bc).hash minerAddress 0 fuel

/-- Peer registry entry (P2PServer.connectSocket lines 57-68); `isOpen` models
`socket.readyState === WebSocket.OPEN`. -/
structure Peer where
  id : String
  address : String
  isOpen : Bool
  connectedAt : Nat
  lastSeen : Nat
deriving DecidableEq, Repr

/-- Message envelopes exchanged between peers (`{type, ...payload}`), limited
to the payload-carrying types the verified handlers construct. -/
inductive NetMsg where
  | chainMsg (chain : List Block)
  | txMsg (transaction : Transaction)
  | blockMsg (block : Block)
deriving DecidableEq, Repr

/-- P2PServer.sendToPeer (lines 209-213): deliver only when the socket is
open.  A send is recorded as the pair of the receiving peer's id and the
message. -/
def sendToPeer (peer : Peer) (message : NetMsg) : List (String × NetMsg) :=
  if peer.isOpen then [(peer.id, message)] else []

/-- P2PServer.broadcast (lines 201-207): iterate the peer registry in order,
sending to each peer whose id differs from `excludePeerId` (`null` is modelled
as `none`) and whose socket is open. -/
def broadcast (peers : List Peer) (message : NetMsg)
    (excludePeerId : Option String) : List (String × NetMsg) :=
  match peers with
  | [] => []
  | peer :: rest =>
    (if (some peer.id != excludePeerId) && peer.isOpen then sendToPeer peer message
     else []) ++ broadcast rest message excludePeerId

/-- P2PServer.broadcastBlock (lines 194-199). -/
def broadcastBlock (peers : List Peer) (block : Block)
    (excludePeerId : Option String) : List (String × NetMsg) :=
  broadcast peers (NetMsg.blockMsg block) excludePeerId

/-- State touched by the BLOCK-message handler: the blockchain, the pool and
the peer registry of one node. -/
structure NodeNet where
  blockchain : Blockchain
  pool : TransactionPool
  peers : List Peer

/-- P2PServer.handleBlockMessage (lines 135-146): when the carried block passes
`isValidBlock` it is appended via `addBlock`, the pool is cleared and the block
is re-broadcast excluding the sender; otherwise nothing happens.  The returned
list holds the sends performed. -/
def handleBlockMessage (env : HashEnv) (st : NodeNet) (block : Block)
    (senderId : String) : NodeNet × List (String × NetMsg) :=
  if isValidBlock env st.blockchain block then
    ({ st with
        blockchain := (addBlock env st.blockchain block).2
        pool := TransactionPool.clear st.pool },
     broadcastBlock st.peers block (some senderId))
  else (st, [])

/-- BlockchainNode state relevant to mining control: the core state plus the
`isMining` flag (constructor lines 513-521). -/
structure BNode where
  blockchain : Blockchain
  pool : TransactionPool
  peers : List Peer
  isMining : Bool

/-- BlockchainNode.stopMining (lines 756-758): sets `isMining = false` and
nothing else.  This is all the `blockReceived` event handler (lines 542-545)
does to an in-flight mining attempt. -/
def stopMining (node : BNode) : BNode :=
  { node with isMining := false }

/-- Continuation of BlockchainNode.mineBlock after the mining promise resolves
(lines 742-753): `addBlock` on the mined block, clear the pool, broadcast the
block to every peer (no exclusion), and finally reset `isMining`.  The
broadcast is unconditional: it happens even when `addBlock` rejects the
block. -/
def mineBlockCompletion (env : HashEnv) (node : BNode) (block : Block) :
    BNode × List (String × NetMsg) :=
  ({ node with
      blockchain := (addBlock env node.blockchain block).2
      pool := TransactionPool.clear node.pool
      isMining := false },
   broadcastBlock node.peers block none)

/-! Concrete instances used by counterexamples and witnesses.  The hash
functions are placeholders standing in for SHA-256: the general theorems hold
for every `HashEnv`, and the concrete statements only need some computable
instance. -/

/-- Hash environment whose hash is the identity on the pre-image string. -/
def env0 : HashEnv := { sha256hex := fun s => s, jsonTx := fun _ => "" }

/-- Genesis block of a node constructed at clock value 0. -/
def genesis0 : Block := createGenesisBlock env0 0 0

/-- Node state constructed at clock value 0 under `env0`. -/
def bcC2 : Blockchain := mkEnhancedBlockchain env0 0 0

/-- Hash environment whose hash is constantly `"0000"`, so every candidate
meets the default difficulty 4 at once. -/
def env00 : HashEnv := { sha256hex := fun _ => "0000", jsonTx := fun _ => "" }

/-- Node state constructed at clock value 0 under `env00`. -/
def bc00 : Blockchain := mkEnhancedBlockchain env00 0 0

/-- The block `mineBlock env00 bc00 [] "addr" 5 1` produces. -/
def minedW : Block :=
  { index := 1, timestamp := 5, transactions := [], previousHash := "0000",
    hash := "0000", nonce := 0, validator := some "addr" }

/-- Hash environment whose hash is constantly `"00000"`: five leading zeros,
one more than the default difficulty 4. -/
def envZ : HashEnv := { sha256hex := fun _ => "00000", jsonTx := fun _ => "" }

/-- Node state constructed at clock value 0 under `envZ`. -/
def bcZ : Blockchain := mkEnhancedBlockchain envZ 0 0

/-- The block `mineBlock envZ bcZ [] "m" 0 1` produces. -/
def minedZ : Block :=
  { index := 1, timestamp := 0, transactions := [], previousHash := "00000",
    hash := "00000", nonce := 0, validator := some "m" }

/-- Sample transaction with id "a". -/
def tA : Transaction :=
  { id := "a", from_ := some "x", to_ := some "y", amount := 5, timestamp := 9,
    signature := none }

/-- Sample transaction with id "b". -/
def tB : Transaction :=
  { id := "b", from_ := some "y", to_ := some "z", amount := 3, timestamp := 10,
    signature := none }

/-- Sample transaction with id "c", not yet pooled. -/
def tC : Transaction :=
  { id := "c", from_ := some "z", to_ := some "x", amount := 2, timestamp := 11,
    signature := none }

/-- Update of `tA`: same id, different amount and timestamp. -/
def tA2 : Transaction :=
  { id := "a", from_ := some "x", to_ := some "y", amount := 7, timestamp := 12,
    signature := none }

/-- Same business fields and timestamp as `tA` but a different id. -/
def tDup2 : Transaction :=
  { id := "a2", from_ := some "x", to_ := some "y", amount := 5, timestamp := 9,
    signature := none }

/-- A pool at capacity 2 holding `tA` and `tB`. -/
def pool2 : TransactionPool := { transactions := [tA, tB], maxPoolSize := 2 }

/-- A pool holding only `tA`. -/
def poolD : TransactionPool := { transactions := [tA], maxPoolSize := 1000 }

/-- Connected peer "p1". -/
def pOpen : Peer :=
  { id := "p1", address := "ws1", isOpen := true, connectedAt := 0, lastSeen := 0 }

/-- Connected peer "p2". -/
def pOpen2 : Peer :=
  { id := "p2", address := "ws2", isOpen := true, connectedAt := 0, lastSeen := 0 }

/-- Registered peer "p3" whose socket is no longer open. -/
def pClosed : Peer :=
  { id := "p3", address := "ws3", isOpen := false, connectedAt := 0, lastSeen := 0 }

/-- Peer registry with two open peers and one closed peer. -/
def peers3 : List Peer := [pOpen, pOpen2, pClosed]

/-- Node network state used by the BLOCK-handler witness. -/
def stW : NodeNet := { blockchain := bc00, pool := poolD, peers := peers3 }

/-- A node that is currently mining, used to evaluate the cancellation path. -/
def nodeC : BNode :=
  { blockchain := bc00, pool := TransactionPool.init, peers := [pOpen],
    isMining := true }

/-! Helper lemmas shared by the claim theorems. -/

/-- Unfolded characterisation of `isValidBlock`: the three checks of lines
308-335 as a conjunction. -/
lemma isValidBlock_eq_true_iff (env : HashEnv) (bc : Blockchain) (b : Block) :
    isValidBlock env bc b = true ↔
      (b.previousHash = (getLatestBlock bc).hash ∧
       b.hash = calculateHash env b.index b.timestamp b.transactions b.previousHash b.nonce ∧
       (bc.consensusType = "POW" → b.hash.take bc.difficulty = powTarget bc.difficulty)) := by
  unfold isValidBlock validateProofOfWork
  by_cases h1 : b.previousHash = (getLatestBlock bc).hash
  · rw [if_neg (not_not_intro h1)]
    by_cases h2 : b.hash = calculateHash env b.index b.timestamp b.transactions b.previousHash b.nonce
    · rw [if_neg (not_not_intro h2)]
      by_cases h3 : bc.consensusType = "POW"
      · rw [if_pos (by simp [h3])]
        constructor
        · intro h; exact ⟨h1, h2, fun _ => by simpa using h⟩
        · rintro ⟨-, -, hd⟩; simpa using hd h3
      · rw [if_neg (by simp [h3])]
        exact ⟨fun _ => ⟨h1, h2, fun hc => absurd hc h3⟩, fun _ => rfl⟩
    · rw [if_pos h2]
      simp only [Bool.false_eq_true, false_iff]
      rintro ⟨-, hb, -⟩; exact h2 hb
  · rw [if_pos h1]
    simp only [Bool.false_eq_true, false_iff]
    rintro ⟨hb, -, -⟩; exact h1 hb

/-- Characterisation of the validation loop of `isValidChain`: all consecutive
links hold and every non-genesis element passes `isValidBlock`. -/
lemma isValidChainLoop_eq_true_iff (env : HashEnv) (bc : Blockchain) :
    ∀ (rest : List Block) (prev : Block),
      isValidChainLoop env bc prev rest = true ↔
        (List.Chain (fun a b => b.previousHash = a.hash) prev rest ∧
         ∀ b ∈ rest, isValidBlock env bc b = true) := by
  intro rest
  induction rest with
  | nil =>
    intro prev
    simp [isValidChainLoop, List.Chain.nil]
  | cons b bs ih =>
    intro prev
    unfold isValidChainLoop
    by_cases h1 : b.previousHash = prev.hash
    · rw [if_neg (not_not_intro h1)]
      by_cases h2 : isValidBlock env bc b = true
      · rw [if_neg (by simpa using h2), ih b]
        constructor
        · rintro ⟨hc, hall⟩
          refine ⟨List.Chain.cons h1 hc, ?_⟩
          intro x hx
          rcases List.mem_cons.mp hx with rfl | hx
          · exact h2
          · exact hall x hx
        · rintro ⟨hc, hall⟩
          rcases List.chain_cons.mp hc with ⟨-, hc⟩
          exact ⟨hc, fun x hx => hall x (List.mem_cons_of_mem b hx)⟩
      · rw [if_pos (by simpa using h2)]
        simp only [Bool.false_eq_true, false_iff]
        rintro ⟨-, hall⟩
        exact h2 (hall b (List.mem_cons_self b bs))
    · rw [if_pos h1]
      simp only [Bool.false_eq_true, false_iff]
      rintro ⟨hc, -⟩
      exact h1 (List.chain_cons.mp hc).1

/-- `replaceFirstById` never changes the number of pooled transactions. -/
lemma replaceFirstById_length (l : List Transaction) (transaction : Transaction) :
    (replaceFirstById l transaction).length = l.length := by
  induction l with
  | nil => rfl
  | cons t ts ih =>
    unfold replaceFirstById
    split_ifs <;> simp [ih]

/-- `updateOrAddTransaction` never changes the capacity bound. -/
lemma updateOrAddTransaction_maxPoolSize (pool : TransactionPool)
    (transaction : Transaction) :
    (updateOrAddTransaction pool transaction).maxPoolSize = pool.maxPoolSize := by
  unfold updateOrAddTransaction
  split_ifs <;> rfl

/-- `updateOrAddTransaction` preserves the size bound whenever the capacity is
at least 1. -/
lemma updateOrAddTransaction_length_le (pool : TransactionPool)
    (transaction : Transaction) (hmax : 1 ≤ pool.maxPoolSize)
    (hlen : pool.transactions.length ≤ pool.maxPoolSize) :
    (updateOrAddTransaction pool transaction).transactions.length ≤ pool.maxPoolSize := by
  unfold updateOrAddTransaction
  split_ifs with hfind hcap
  · simpa [replaceFirstById_length] using hlen
  · have htail : pool.transactions.tail.length = pool.transactions.length - 1 :=
      List.length_tail pool.transactions
    simp only [List.length_append, List.length_cons, List.length_nil, htail]
    omega
  · simp only [List.length_append, List.length_cons, List.length_nil]
    omega

/-- One pool operation preserves the capacity field and the size bound. -/
lemma applyPoolOp_invariant (pool : TransactionPool) (op : PoolOp)
    (hmax : 1 ≤ pool.maxPoolSize) (hlen : pool.transactions.length ≤ pool.maxPoolSize) :
    (applyPoolOp pool op).maxPoolSize = pool.maxPoolSize ∧
    (applyPoolOp pool op).transactions.length ≤ pool.maxPoolSize := by
  cases op with
  | update transaction =>
    exact ⟨updateOrAddTransaction_maxPoolSize pool transaction,
      updateOrAddTransaction_length_le pool transaction hmax hlen⟩
  | clearPool => exact ⟨rfl, by simp [applyPoolOp, TransactionPool.clear]⟩
  | remove transactionId =>
    refine ⟨rfl, le_trans ?_ hlen⟩
    simpa [applyPoolOp, removeTransaction] using
      List.length_filter_le (fun t => t.id != transactionId) pool.transactions

/-- Every operation sequence preserves the capacity field and the size
bound. -/
lemma applyPoolOps_invariant : ∀ (ops : List PoolOp) (pool : TransactionPool),
    1 ≤ pool.maxPoolSize → pool.transactions.length ≤ pool.maxPoolSize →
    ((applyPoolOps pool ops).maxPoolSize = pool.maxPoolSize ∧
     (applyPoolOps pool ops).transactions.length ≤ pool.maxPoolSize) := by
  intro ops
  induction ops with
  | nil => intro pool _ hlen; exact ⟨rfl, hlen⟩
  | cons op rest ih =>
    intro pool hmax hlen
    have hstep := applyPoolOp_invariant pool op hmax hlen
    have := ih (applyPoolOp pool op) (hstep.1 ▸ hmax) (hstep.1 ▸ hstep.2)
    exact ⟨by rw [applyPoolOps, List.foldl_cons, ← applyPoolOps, this.1, hstep.1],
      by rw [applyPoolOps, List.foldl_cons, ← applyPoolOps, ← hstep.1]; exact this.2⟩

/-- The nonce search only resolves with a block that passes
`validateProofOfWork`. -/
lemma mineAttempt_pow (env : HashEnv) (difficulty index timestamp : Nat)
    (transactions : List Transaction) (previousHash minerAddress : String) :
    ∀ (fuel nonce : Nat) (b : Block),
      mineAttempt env difficulty index timestamp transactions previousHash
        minerAddress nonce fuel = some b →
      validateProofOfWork b difficulty = true := by
  intro fuel
  induction fuel with
  | zero => intro nonce b h; simp [mineAttempt] at h
  | succ n ih =>
    intro nonce b h
    unfold mineAttempt at h
    dsimp only at h
    split_ifs at h with hpow
    · rw [Option.some.injEq] at h
      subst h
      simpa [validateProofOfWork] using hpow
    · exact ih (nonce + 1) b h

/-- `broadcast` delivers the message, in registry order, exactly to the open
peers whose id differs from the excluded one. -/
lemma broadcast_eq_filter_map (peers : List Peer) (message : NetMsg)
    (excludePeerId : Option String) :
    broadcast peers message excludePeerId =
      (peers.filter (fun p => (some p.id != excludePeerId) && p.isOpen)).map
        (fun p => (p.id, message)) := by
  induction peers with
  | nil => rfl
  | cons p ps ih =>
    unfold broadcast
    by_cases hc : ((some p.id != excludePeerId) && p.isOpen) = true
    · rw [if_pos hc]
      have hopen : p.isOpen = true := by
        simp only [Bool.and_eq_true] at hc
        exact hc.2
      rw [List.filter_cons, if_pos hc, List.map_cons]
      unfold sendToPeer
      rw [if_pos hopen, ih]
      rfl
    · rw [if_neg hc, List.filter_cons, if_neg hc, ih]
      rfl

/-- Every recorded send of a `broadcast` goes to an open, registered,
non-excluded peer and carries the broadcast message. -/
lemma mem_broadcast (peers : List Peer) (message : NetMsg)
    (excludePeerId : Option String) (pr : String × NetMsg)
    (h : pr ∈ broadcast peers message excludePeerId) :
    pr.2 = message ∧
    ∃ p ∈ peers, pr.1 = p.id ∧ p.isOpen = true ∧ some p.id ≠ excludePeerId := by
  rw [broadcast_eq_filter_map] at h
  rcases List.mem_map.mp h with ⟨p, hp, rfl⟩
  rcases List.mem_filter.mp hp with ⟨hmem, hcond⟩
  simp only [Bool.and_eq_true] at hcond
  exact ⟨rfl, p, hmem, rfl, hcond.2, by simpa using hcond.1⟩

/-! Claim theorems. -/

/-- C1: `replaceChain(candidate)` installs the candidate and returns success
exactly when the candidate is strictly longer than the current chain and
passes `isValidChain` (evaluated at the same clock instants); in every other
case it returns rejection and leaves the whole state unchanged. -/
theorem replaceChain_spec (env : HashEnv) (t1 t2 : Nat) (bc : Blockchain)
    (newChain : List Block) :
    replaceChain env t1 t2 bc newChain =
      if bc.chain.length < newChain.length ∧ isValidChain env t1 t2 bc newChain = true
      then (true, { bc with chain := newChain })
      else (false, bc) := by
  unfold replaceChain
  by_cases h1 : newChain.length ≤ bc.chain.length
  · rw [if_pos h1, if_neg (fun h => absurd h.1 (by omega))]
  · rw [if_neg h1]
    by_cases h2 : isValidChain env t1 t2 bc newChain = true
    · rw [if_neg (by simp [h2]), if_pos ⟨by omega, h2⟩]
    · rw [if_pos (by simp [h2]), if_neg (fun h => absurd h.2 h2)]

/-- C2 (counterexample to the claim as stated): the node `bcC2` was built at
clock 0, so `genesis0` is its canonical genesis block and the one-element
candidate `[genesis0]` satisfies the claim's acceptance condition (element 0
is the canonical genesis and there are no later elements).  Yet when the
validation runs at clock 1, `isValidChain` returns `false`: line 338
regenerates the genesis with the *current* `Date.now()`, whose timestamp 1 no
longer matches the stored genesis timestamp 0. -/
theorem isValidChain_claim_counterexample :
    bcC2.chain = [genesis0] ∧
    [genesis0].head? = some genesis0 ∧
    [genesis0].drop 1 = [] ∧
    isValidChain env0 1 1 bcC2 [genesis0] = false := by
  refine ⟨rfl, rfl, rfl, ?_⟩
  decide

/-- C2 (amended): `isValidChain(candidate)` returns true iff the candidate is
non-empty, its element 0 equals the genesis block regenerated at the clock
instants of the validation call, consecutive elements are linked by
`previousHash`, and every element after the first passes `isValidBlock` —
which checks its `previousHash` against the *currently stored* chain's tail
(not the candidate predecessor), its hash recomputation, and the
proof-of-work target.  Consequently, every accepted chain satisfies the
claim's link property and has `hash(C[i]) = C[i].hash` for all `i > 0`. -/
theorem isValidChain_characterization (env : HashEnv) (t1 t2 : Nat)
    (bc : Blockchain) (chain : List Block) :
    (isValidChain env t1 t2 bc chain = true ↔
      (chain.head? = some (createGenesisBlock env t1 t2) ∧
       List.Chain' (fun a b => b.previousHash = a.hash) chain ∧
       ∀ b ∈ chain.drop 1, isValidBlock env bc b = true)) ∧
    (isValidChain env t1 t2 bc chain = true →
      ∀ b ∈ chain.drop 1,
        b.hash = calculateHash env b.index b.timestamp b.transactions
          b.previousHash b.nonce) := by
  have main : isValidChain env t1 t2 bc chain = true ↔
      (chain.head? = some (createGenesisBlock env t1 t2) ∧
       List.Chain' (fun a b => b.previousHash = a.hash) chain ∧
       ∀ b ∈ chain.drop 1, isValidBlock env bc b = true) := by
    cases chain with
    | nil => simp [isValidChain]
    | cons g rest =>
      have hdef : isValidChain env t1 t2 bc (g :: rest) =
          (if ¬ (g = createGenesisBlock env t1 t2) then false
           else isValidChainLoop env bc g rest) := rfl
      rw [hdef]
      have hchain : List.Chain' (fun a b => b.previousHash = a.hash) (g :: rest) ↔
          List.Chain (fun a b => b.previousHash = a.hash) g rest := Iff.rfl
      by_cases hg : g = createGenesisBlock env t1 t2
      · rw [if_neg (not_not_intro hg), isValidChainLoop_eq_true_iff]
        simp only [List.head?_cons, List.drop_one, List.tail_cons, hchain, hg]
        simp only [Option.some.injEq, true_and, and_congr_left_iff]
        intro _
        exact Iff.rfl
      · rw [if_pos hg]
        simp only [Bool.false_eq_true, false_iff, List.head?_cons]
        rintro ⟨hgg, -, -⟩
        exact hg (Option.some_injective _ hgg)
  refine ⟨main, ?_⟩
  intro hv b hb
  exact ((isValidBlock_eq_true_iff env bc b).mp ((main.mp hv).2.2 b hb)).2.1

/-- C2 (witness): a candidate validated at the same clock instants the node
was constructed at is accepted, and the characterisation instantiates. -/
theorem isValidChain_characterization_witness :
    isValidChain env0 0 0 bcC2 [genesis0] = true ∧
    ([genesis0].head? = some (createGenesisBlock env0 0 0) ∧
     List.Chain' (fun a b => b.previousHash = a.hash) [genesis0] ∧
     ∀ b ∈ [genesis0].drop 1, isValidBlock env0 bcC2 b = true) := by
  have h := isValidChain_characterization env0 0 0 bcC2 [genesis0]
  have hv : isValidChain env0 0 0 bcC2 [genesis0] = true := by decide
  exact ⟨hv, h.1.mp hv⟩

/-- C3: `getValidTransactions()` always returns the empty list — every pooled
transaction either fails the basic field checks or finds itself in the
duplicate search — so a locally assembled mining candidate consists of the
reward transaction alone. -/
theorem getValidTransactions_empty (pool : TransactionPool)
    (rewardTransaction : Transaction) :
    getValidTransactions pool = [] ∧
    candidateTransactions pool rewardTransaction = [rewardTransaction] := by
  have h : ∀ t ∈ pool.transactions, ¬ (validTransaction pool t = true) := by
    intro t ht hvalid
    unfold validTransaction at hvalid
    split_ifs at hvalid with h1 h2
    have hfound : (pool.transactions.find? (fun s =>
        s.from_ == t.from_ && s.to_ == t.to_ &&
        s.amount == t.amount && s.timestamp == t.timestamp)).isSome := by
      apply List.find?_isSome.mpr
      refine ⟨t, ht, ?_⟩
      simp
    rw [hfound] at hvalid
    simp at hvalid
  have h0 : getValidTransactions pool = [] := by
    apply List.filter_eq_nil_iff.mpr
    intro a ha
    simpa using h a ha
  exact ⟨h0, by unfold candidateTransactions; rw [h0]; rfl⟩

/-- C4: `isValidBlock(b)` returns true exactly when `b.previousHash` matches
the stored tail's hash, the hash recomputed from `b`'s fields equals `b.hash`,
and — under proof-of-work consensus — `b.hash` begins with `difficulty` zero
hex characters. -/
theorem isValidBlock_spec (env : HashEnv) (bc : Blockchain) (b : Block) :
    isValidBlock env bc b = true ↔
      (b.previousHash = (getLatestBlock bc).hash ∧
       b.hash = calculateHash env b.index b.timestamp b.transactions b.previousHash b.nonce ∧
       (bc.consensusType = "POW" → b.hash.take bc.difficulty = powTarget bc.difficulty)) :=
  isValidBlock_eq_true_iff env bc b

/-- C4 (witness): the characterisation instantiated at a block that is in fact
accepted. -/
theorem isValidBlock_spec_witness :
    (isValidBlock env00 bc00 minedW = true ↔
      (minedW.previousHash = (getLatestBlock bc00).hash ∧
       minedW.hash = calculateHash env00 minedW.index minedW.timestamp
         minedW.transactions minedW.previousHash minedW.nonce ∧
       (bc00.consensusType = "POW" →
         minedW.hash.take bc00.difficulty = powTarget bc00.difficulty))) ∧
    isValidBlock env00 bc00 minedW = true :=
  ⟨isValidBlock_spec env00 bc00 minedW, by decide⟩

/-- C5 (counterexample to "exactly `difficulty` zeros"): at the default
difficulty 4, a completed mining attempt can return a block whose hash begins
with five zero characters — the search only checks the first `difficulty`
characters, so nothing stops the hash from having more leading zeros. -/
theorem minedBlock_exact_zeros_counterexample :
    mineBlock envZ bcZ [] "m" 0 1 = some minedZ ∧
    bcZ.difficulty = 4 ∧
    (minedZ.hash.data.takeWhile (fun c => c == '0')).length = 5 ∧
    ¬ ((minedZ.hash.data.takeWhile (fun c => c == '0')).length = bcZ.difficulty) := by
  refine ⟨by decide, rfl, by decide, by decide⟩

/-- C5 (amended): every block returned by a completed mining attempt passes
`validateProofOfWork`, i.e. its first `difficulty` hex characters are all
zero (at least `difficulty` leading zeros, possibly more); the search never
resolves with a non-conforming hash. -/
theorem mineBlock_pow (env : HashEnv) (bc : Blockchain)
    (transactions : List Transaction) (minerAddress : String) (now fuel : Nat)
    (b : Block) (h : mineBlock env bc transactions minerAddress now fuel = some b) :
    validateProofOfWork b bc.difficulty = true ∧
    b.hash.take bc.difficulty = powTarget bc.difficulty := by
  have hpow := mineAttempt_pow env bc.difficulty bc.chain.length now transactions
    (getLatestBlock bc).hash minerAddress fuel 0 b h
  exact ⟨hpow, by simpa [validateProofOfWork] using hpow⟩

/-- C5 (witness): a concrete completed attempt whose result the theorem
applies to. -/
theorem mineBlock_pow_witness :
    mineBlock env00 bc00 [] "addr" 5 1 = some minedW ∧
    validateProofOfWork minedW bc00.difficulty = true ∧
    minedW.hash.take bc00.difficulty = powTarget bc00.difficulty := by
  have h := mineBlock_pow env00 bc00 [] "addr" 5 1 minedW (by decide)
  exact ⟨by decide, h.1, h.2⟩

/-- C6: starting from the empty pool, no sequence of `updateOrAddTransaction`,
`clear` and `removeTransaction` calls pushes the pool size past `maxPoolSize`;
appending a new id to a pool at capacity first evicts the oldest (head) entry
and then appends; an existing id is overwritten in place with no eviction and
no size change. -/
theorem transactionPool_invariants :
    (∀ ops : List PoolOp,
        (applyPoolOps TransactionPool.init ops).transactions.length ≤
          (applyPoolOps TransactionPool.init ops).maxPoolSize) ∧
    (∀ (pool : TransactionPool) (transaction : Transaction),
        (∀ t ∈ pool.transactions, ¬ t.id = transaction.id) →
        pool.transactions.length = pool.maxPoolSize →
        (updateOrAddTransaction pool transaction).transactions =
          pool.transactions.tail ++ [transaction]) ∧
    (∀ (pool : TransactionPool) (transaction : Transaction),
        (∃ t ∈ pool.transactions, t.id = transaction.id) →
        (updateOrAddTransaction pool transaction).transactions =
          replaceFirstById pool.transactions transaction ∧
        (updateOrAddTransaction pool transaction).transactions.length =
          pool.transactions.length) := by
  refine ⟨?_, ?_, ?_⟩
  · intro ops
    have h := applyPoolOps_invariant ops TransactionPool.init (by decide) (by decide)
    rw [h.1]
    exact h.2
  · intro pool transaction hnew hcap
    unfold updateOrAddTransaction
    have hfind : (pool.transactions.find? (fun t => t.id == transaction.id)).isSome = false := by
      rw [Bool.eq_false_iff]
      intro hsome
      rcases List.find?_isSome.mp hsome with ⟨t, ht, hbeq⟩
      exact hnew t ht (by simpa using hbeq)
    rw [hfind]
    simp only [Bool.false_eq_true, if_false]
    rw [if_pos (le_of_eq hcap.symm)]
  · intro pool transaction hex
    have hfind : (pool.transactions.find? (fun t => t.id == transaction.id)).isSome = true := by
      apply List.find?_isSome.mpr
      rcases hex with ⟨t, ht, hid⟩
      exact ⟨t, ht, by simp [hid]⟩
    unfold updateOrAddTransaction
    rw [hfind]
    rw [if_pos rfl]
    exact ⟨rfl, replaceFirstById_length pool.transactions transaction⟩

/-- C6 (witness): one update from the empty pool stays within the bound; at
capacity 2, inserting the fresh id "c" evicts the head; re-sending id "a"
overwrites in place. -/
theorem transactionPool_invariants_witness :
    (applyPoolOps TransactionPool.init [PoolOp.update tA]).transactions.length ≤
      (applyPoolOps TransactionPool.init [PoolOp.update tA]).maxPoolSize ∧
    (updateOrAddTransaction pool2 tC).transactions = pool2.transactions.tail ++ [tC] ∧
    (updateOrAddTransaction pool2 tA2).transactions =
      replaceFirstById pool2.transactions tA2 := by
  have h := transactionPool_invariants
  exact ⟨h.1 [PoolOp.update tA],
    h.2.1 pool2 tC (by decide) (by decide),
    (h.2.2 pool2 tA2 ⟨tA, by decide, by decide⟩).1⟩

/-- C7: `validTransaction(tx)` accepts exactly when `from` and `to` are
non-empty, the amount is positive, and no pooled entry carries the identical
`(from, to, amount, timestamp)` tuple; in particular a transaction whose
value-tuple matches a pooled entry is rejected even when its id differs. -/
theorem validTransaction_spec (pool : TransactionPool) (transaction : Transaction) :
    (validTransaction pool transaction = true ↔
      (jsFalsyStr transaction.from_ = false ∧ jsFalsyStr transaction.to_ = false ∧
       0 < transaction.amount ∧
       ∀ t ∈ pool.transactions,
         ¬ (t.from_ = transaction.from_ ∧ t.to_ = transaction.to_ ∧
            t.amount = transaction.amount ∧ t.timestamp = transaction.timestamp))) ∧
    (∀ t ∈ pool.transactions,
       t.from_ = transaction.from_ → t.to_ = transaction.to_ →
       t.amount = transaction.amount → t.timestamp = transaction.timestamp →
       t.id ≠ transaction.id →
       validTransaction pool transaction = false) := by
  have main : validTransaction pool transaction = true ↔
      (jsFalsyStr transaction.from_ = false ∧ jsFalsyStr transaction.to_ = false ∧
       0 < transaction.amount ∧
       ∀ t ∈ pool.transactions,
         ¬ (t.from_ = transaction.from_ ∧ t.to_ = transaction.to_ ∧
            t.amount = transaction.amount ∧ t.timestamp = transaction.timestamp)) := by
    unfold validTransaction
    split_ifs with h1 h2
    · simp only [Bool.false_eq_true, false_iff]
      rintro ⟨hf, ht, ha, -⟩
      simp only [Bool.or_eq_true, beq_iff_eq] at h1
      rcases h1 with (hf' | ht') | hc
      · rw [hf] at hf'; exact Bool.false_ne_true hf'
      · rw [ht] at ht'; exact Bool.false_ne_true ht'
      · omega
    · simp only [Bool.false_eq_true, false_iff]
      rintro ⟨-, -, ha, -⟩
      omega
    · simp only [not_or, Bool.or_eq_true] at h1
      have hf : jsFalsyStr transaction.from_ = false :=
        Bool.eq_false_iff.mpr h1.1.1
      have ht : jsFalsyStr transaction.to_ = false :=
        Bool.eq_false_iff.mpr h1.1.2
      have ha : 0 < transaction.amount := by
        have : ¬ transaction.amount = 0 := by
          intro h0; exact h1.2 (by simp [h0])
        omega
      constructor
      · intro hfind
        refine ⟨hf, ht, ha, ?_⟩
        intro t htmem hdup
        have : (pool.transactions.find? (fun t =>
            t.from_ == transaction.from_ && t.to_ == transaction.to_ &&
            t.amount == transaction.amount && t.timestamp == transaction.timestamp)).isSome := by
          apply List.find?_isSome.mpr
          exact ⟨t, htmem, by simp [hdup.1, hdup.2.1, hdup.2.2.1, hdup.2.2.2]⟩
        rw [this] at hfind
        exact absurd hfind (by simp)
      · rintro ⟨-, -, -, hnodup⟩
        have : (pool.transactions.find? (fun t =>
            t.from_ == transaction.from_ && t.to_ == transaction.to_ &&
            t.amount == transaction.amount && t.timestamp == transaction.timestamp)).isSome = false := by
          rw [Bool.eq_false_iff]
          intro hsome
          rcases List.find?_isSome.mp hsome with ⟨t, htmem, hbeq⟩
          simp only [Bool.and_eq_true, beq_iff_eq] at hbeq
          exact hnodup t htmem ⟨hbeq.1.1.1, hbeq.1.1.2, hbeq.1.2, hbeq.2⟩
        rw [this]
        rfl
  refine ⟨main, ?_⟩
  intro t htmem hfe hte hae htse _
  rw [Bool.eq_false_iff]
  intro hvalid
  exact ((main.mp hvalid).2.2.2 t htmem) ⟨hfe, hte, hae, htse⟩

/-- C7 (witness): `tDup2` shares `tA`'s value-tuple but not its id and is
rejected once `tA` is pooled, while the same transaction is accepted against
the empty pool. -/
theorem validTransaction_spec_witness :
    validTransaction poolD tDup2 = false ∧
    validTransaction TransactionPool.init tDup2 = true := by
  have h := validTransaction_spec poolD tDup2
  have h0 := validTransaction_spec TransactionPool.init tDup2
  exact ⟨h.2 tA (by decide) (by decide) (by decide) (by decide) (by decide) (by decide),
    h0.1.mpr ⟨by decide, by decide, by decide,
      by intro t htmem; simp [TransactionPool.init] at htmem⟩⟩

/-- C8: a BLOCK message whose block passes `isValidBlock` appends the block,
empties the pool and re-broadcasts the block to every open peer except the
sender; a block failing `isValidBlock` leaves the state untouched and sends
nothing. -/
theorem handleBlockMessage_spec (env : HashEnv) (st : NodeNet) (block : Block)
    (senderId : String) :
    (isValidBlock env st.blockchain block = true →
       ((handleBlockMessage env st block senderId).1.blockchain.chain =
          st.blockchain.chain ++ [block] ∧
        (handleBlockMessage env st block senderId).1.pool.transactions = [] ∧
        (handleBlockMessage env st block senderId).2 =
          (st.peers.filter (fun p => (some p.id != some senderId) && p.isOpen)).map
            (fun p => (p.id, NetMsg.blockMsg block)) ∧
        ∀ pr ∈ (handleBlockMessage env st block senderId).2, pr.1 ≠ senderId)) ∧
    (isValidBlock env st.blockchain block = false →
       (handleBlockMessage env st block senderId).1 = st ∧
       (handleBlockMessage env st block senderId).2 = []) := by
  constructor
  · intro hv
    unfold handleBlockMessage
    rw [if_pos hv]
    unfold addBlock
    rw [if_pos hv]
    refine ⟨rfl, rfl, ?_, ?_⟩
    · unfold broadcastBlock
      exact broadcast_eq_filter_map st.peers (NetMsg.blockMsg block) (some senderId)
    · intro pr hpr
      rcases mem_broadcast st.peers (NetMsg.blockMsg block) (some senderId) pr hpr
        with ⟨-, p, -, heq, -, hne⟩
      rw [heq]
      intro hid
      exact hne (by rw [hid])
  · intro hv
    unfold handleBlockMessage
    rw [if_neg (by simp [hv])]
    exact ⟨rfl, rfl⟩

/-- C8 (witness): a concrete valid block is appended, the pool is cleared and
the sender "p1" receives nothing. -/
theorem handleBlockMessage_spec_witness :
    isValidBlock env00 stW.blockchain minedW = true ∧
    (handleBlockMessage env00 stW minedW "p1").1.blockchain.chain =
      stW.blockchain.chain ++ [minedW] ∧
    (handleBlockMessage env00 stW minedW "p1").1.pool.transactions = [] ∧
    ∀ pr ∈ (handleBlockMessage env00 stW minedW "p1").2, pr.1 ≠ "p1" := by
  have hv : isValidBlock env00 stW.blockchain minedW = true := by decide
  have h := (handleBlockMessage_spec env00 stW minedW "p1").1 hv
  exact ⟨hv, h.1, h.2.1, h.2.2.2⟩

/-- C9 (evaluation of the code at the failing scenario): `stopMining` — all
the accepted-block event handler does — only flips the `isMining` flag; the
pending nonce search takes no such flag and still resolves with the same
block, and the completion path of `BlockchainNode.mineBlock` still broadcasts
that locally mined block to the peers.  The in-flight attempt is therefore
not abandoned, contradicting the claim (and the source's own comment "Stop
current mining if block received"). -/
theorem stopMining_does_not_cancel :
    (∀ node : BNode, stopMining node = { node with isMining := false }) ∧
    (stopMining nodeC).isMining = false ∧
    mineBlock env00 (stopMining nodeC).blockchain [] "addr" 5 1 = some minedW ∧
    (mineBlockCompletion env00 (stopMining nodeC) minedW).2 =
      [("p1", NetMsg.blockMsg minedW)] := by
  refine ⟨fun node => rfl, rfl, by decide, by decide⟩

/-- C10: `broadcast(message, excludeId)` records one send per registered peer
that is open and not the excluded one, in registry order, and never delivers
to the excluded peer. -/
theorem broadcast_spec (peers : List Peer) (message : NetMsg)
    (excludePeerId : Option String) :
    broadcast peers message excludePeerId =
      (peers.filter (fun p => (some p.id != excludePeerId) && p.isOpen)).map
        (fun p => (p.id, message)) ∧
    (∀ e, excludePeerId = some e →
      ∀ pr ∈ broadcast peers message excludePeerId, pr.1 ≠ e) := by
  refine ⟨broadcast_eq_filter_map peers message excludePeerId, ?_⟩
  rintro e rfl pr hpr
  rcases mem_broadcast peers message (some e) pr hpr with ⟨-, p, -, heq, -, hne⟩
  rw [heq]
  intro hid
  exact hne (by rw [hid])

/-- C10 (witness): broadcasting to `[p1 open, p2 open, p3 closed]` while
excluding "p1" reaches exactly "p2". -/
theorem broadcast_spec_witness :
    broadcast peers3 (NetMsg.txMsg tA) (some "p1") = [("p2", NetMsg.txMsg tA)] ∧
    ("p1", NetMsg.txMsg tA) ∉ broadcast peers3 (NetMsg.txMsg tA) (some "p1") := by
  have h := broadcast_spec peers3 (NetMsg.txMsg tA) (some "p1")
  constructor
  · rw [h.1]; decide
  · intro hm
    exact (h.2 "p1" rfl ("p1", NetMsg.txMsg tA) hm) rfl

end P2PNetwork
